import Mathlib

/-!
Verification of the context-anchored patch engine described in the design
document, together with the workspace editor example that consumes it.

The patch engine itself ships outside this checkout (only its tests and its
callers are present), so its components are modelled here from the design
document, faithful to the contracts in sections 4.1 - 4.8: line
normalization, the diff tokenizer, the section reader, the fuzzy context
matcher, the chunk resolver, the chunk applier, the create-mode builder and
the final reassembly rule.  All text handling is done over `List Char`
(`String.data`) so that every definition is executable and provable.
-/

/-- Modelled from the spec, section 7: the two fatal error kinds.  A Format
error means the diff text itself is malformed; a Resolution error means the
diff is well-formed but does not apply to the original text.  The tagged
constructors make the two kinds distinguishable by the caller. -/
inductive ApplyError where
  | format (msg : String)
  | resolution (msg : String)
deriving DecidableEq

/-- Character-level test that `p` is a leading pattern of `s`. -/
def strHasPre (p s : String) : Bool :=
  p.data.isPrefixOf s.data

/-- Drop the single-character directive marker from a diff line. -/
def strDropPre (s : String) : String :=
  String.mk (s.data.drop 1)

/-- Trim leading and trailing whitespace characters from a character list. -/
def trimChars (cs : List Char) : List Char :=
  ((cs.dropWhile Char.isWhitespace).reverse.dropWhile Char.isWhitespace).reverse

/-- Trim leading and trailing whitespace from both ends of a line. -/
def strTrim (s : String) : String :=
  String.mk (trimChars s.data)

/-- Split a character list on the newline character.  Always returns a
nonempty list: the number of pieces is one more than the number of newline
characters. -/
def splitNlChars : List Char → List (List Char)
  | [] => [[]]
  | c :: rest =>
    if c = '\n' then [] :: splitNlChars rest
    else
      match splitNlChars rest with
      | [] => [[c]]
      | h :: t => (c :: h) :: t

/-- Character-level body of the line normalizer: split on the newline
character and drop the single empty trailing element, if any. -/
def normChars (cs : List Char) : List (List Char) :=
  let parts := splitNlChars cs
  if parts.getLast? = some [] then parts.dropLast else parts

/-- Modelled from the spec, section 4.1 (Line Normalizer): split raw text on
the newline character; if the resulting sequence has an empty trailing
element (the text ended with a newline, or was empty), drop that single
element.  Empty input yields the empty sequence. -/
def _normalize_diff_lines (text : String) : List String :=
  (normChars text.data).map String.mk

/-- Join a sequence of lines (as character lists) with newline separators. -/
def joinNlChars : List (List Char) → List Char
  | [] => []
  | [l] => l
  | l :: rest => l ++ '\n' :: joinNlChars rest

/-- Character-level body of reassembly: join with newline separators and
append one final newline exactly when the result does not already end with
one. -/
def reasmChars (ls : List (List Char)) : List Char :=
  let joined := joinNlChars ls
  if joined.getLast? = some '\n' then joined else joined ++ ['\n']

/-- Modelled from the spec, section 4.8 (Reassembly): join the final line
sequence with newline separators; if the result does not already end with a
newline, append one. -/
def reassemble (lines : List String) : String :=
  String.mk (reasmChars (lines.map String.data))

/-- Modelled from the spec, section 4.2: cursor over the normalized diff
lines plus a current index. -/
structure ParserState where
  lines : List String
  index : Nat
deriving DecidableEq

/-- Modelled from the spec, section 4.2: true when the cursor is at or past
the end of the input, or the current line equals one of the given
terminator strings. -/
def _is_done (st : ParserState) (terminators : List String) : Bool :=
  match st.lines.get? st.index with
  | none => true
  | some l => terminators.contains l

/-- Modelled from the spec, section 4.2: read the current line's remainder
if it starts with the given pattern and advance the cursor, else leave the
cursor untouched and report no match (as the empty string). -/
def _read_str (st : ParserState) (pre : String) : String × ParserState :=
  match st.lines.get? st.index with
  | none => ("", st)
  | some l =>
    if strHasPre pre l then
      (String.mk (l.data.drop pre.data.length), { st with index := st.index + 1 })
    else ("", st)

/-- Modelled from the spec, sections 3 and 4.3: one parsed section of a
hunk - leading context lines, deletion lines, insertion lines, trailing
context lines, and the end-of-file flag. -/
structure DiffSection where
  lead_ctx : List String
  del_lines : List String
  ins_lines : List String
  trail_ctx : List String
  eof : Bool
deriving DecidableEq

/-- The empty section accumulator. -/
def emptySection : DiffSection :=
  ⟨[], [], [], [], false⟩

/-- Phase of the section reader: before any deletion or insertion, inside
the interleaved deletion/insertion run, or inside the trailing context
run. -/
inductive SecPhase where
  | lead
  | body
  | trail
deriving DecidableEq

/-- Modelled from the spec, section 4.3: consume directive lines of one
section.  Returns the section and the number of diff lines consumed.  The
section ends at a new hunk marker, at the explicit end-of-file marker
(which is consumed and sets the `eof` flag), or at input exhaustion; a
deletion or insertion line after the trailing-context run also closes the
section.  Any other marker-like line fails with a Format error. -/
def readSecLoop : List String → SecPhase → DiffSection → Except ApplyError (DiffSection × Nat)
  | [], _, acc => .ok (acc, 0)
  | l :: rest, phase, acc =>
    if strHasPre "@@" l then .ok (acc, 0)
    else if l = "*** End of File" then .ok ({ acc with eof := true }, 1)
    else if strHasPre "***" l then .error (.format ("unrecognized marker: " ++ l))
    else if strHasPre "+" l then
      if phase = SecPhase.trail then .ok (acc, 0)
      else
        match readSecLoop rest SecPhase.body { acc with ins_lines := acc.ins_lines ++ [strDropPre l] } with
        | .error e => .error e
        | .ok (sec, n) => .ok (sec, n + 1)
    else if strHasPre "-" l then
      if phase = SecPhase.trail then .ok (acc, 0)
      else
        match readSecLoop rest SecPhase.body { acc with del_lines := acc.del_lines ++ [strDropPre l] } with
        | .error e => .error e
        | .ok (sec, n) => .ok (sec, n + 1)
    else if strHasPre " " l || l = "" then
      match phase with
      | SecPhase.lead =>
        match readSecLoop rest SecPhase.lead { acc with lead_ctx := acc.lead_ctx ++ [strDropPre l] } with
        | .error e => .error e
        | .ok (sec, n) => .ok (sec, n + 1)
      | _ =>
        match readSecLoop rest SecPhase.trail { acc with trail_ctx := acc.trail_ctx ++ [strDropPre l] } with
        | .error e => .error e
        | .ok (sec, n) => .ok (sec, n + 1)
    else .error (.format ("invalid directive line: " ++ l))

/-- Modelled from the spec, section 4.3: read one section starting at the
given index of the diff lines.  Attempting to read a section when no lines
remain at all fails with a Format error.  Returns the section together with
the index just past the consumed lines. -/
def _read_section (lines : List String) (index : Nat) : Except ApplyError (DiffSection × Nat) :=
  if lines.length ≤ index then
    .error (.format "a section must contain at least one directive line")
  else
    match readSecLoop (lines.drop index) SecPhase.lead emptySection with
    | .error e => .error e
    | .ok (sec, n) => .ok (sec, index + n)

/-- Modelled from the spec, sections 3 and 4.4: result of searching content
for an expected line sequence - a resolved position (`-1` is the sentinel
for "not found") and a fuzz cost. -/
structure ContextMatch where
  new_index : Int
  fuzz : Nat
deriving DecidableEq

/-- Exact candidate-window comparison used by the first matching tier. -/
def sliceEq (lines ctx : List String) (i : Nat) : Bool :=
  decide ((lines.drop i).take ctx.length = ctx)

/-- Whitespace-trimmed candidate-window comparison used by the second
matching tier. -/
def sliceEqTrim (lines ctx : List String) (i : Nat) : Bool :=
  decide (((lines.drop i).take ctx.length).map strTrim = ctx.map strTrim)

/-- First index `i` in `[start, start + count)` satisfying `f`. -/
def scanFirst (f : Nat → Bool) : Nat → Nat → Option Nat
  | _, 0 => none
  | i, n + 1 => if f i then some i else scanFirst f (i + 1) n

/-- Modelled from the spec, section 4.4 (Fuzzy Context Matcher, core): scan
forward from the start index.  Tier 1 is exact equality of every expected
line against the candidate window (fuzz 0); tier 2 is equality after
trimming leading and trailing whitespace on both sides per line (fuzz 100);
the lowest tier that matches anywhere wins and its first position is
returned.  An empty expected sequence trivially matches at the start index.
If no tier matches, the sentinel position `-1` with fuzz 10000 is
returned. -/
def _find_context_core (lines ctx : List String) (start : Nat) : ContextMatch :=
  if ctx = [] then ⟨Int.ofNat start, 0⟩
  else
    match scanFirst (sliceEq lines ctx) start (lines.length - start) with
    | some i => ⟨Int.ofNat i, 0⟩
    | none =>
      match scanFirst (sliceEqTrim lines ctx) start (lines.length - start) with
      | some i => ⟨Int.ofNat i, 100⟩
      | none => ⟨-1, 10000⟩

/-- Modelled from the spec, section 4.4: forward search from the start
index; when the `eof` flag is set and no forward match was found, a final
attempt anchors the expected lines against the tail of the text (the last N
lines, N the length of the expected sequence) using the same tiers.  If
still unmatched the result carries the sentinel position and a fuzz at or
above 10000. -/
def _find_context (lines ctx : List String) (start : Nat) (eof : Bool) : ContextMatch :=
  let m := _find_context_core lines ctx start
  if m.new_index ≠ -1 then m
  else if eof then
    let m2 := _find_context_core lines ctx (lines.length - ctx.length)
    if m2.new_index ≠ -1 then m2 else ⟨-1, 10000⟩
  else m

/-- Modelled from the spec, section 3: a fully resolved edit - the 0-based
position in the original line sequence where the edit begins, the lines
removed there, and the lines substituted. -/
structure Chunk where
  orig_index : Nat
  del_lines : List String
  ins_lines : List String
deriving DecidableEq

/-- Modelled from the spec, section 4.5 (Chunk Resolver): resolve each
parsed section into a chunk by locating its expected lines (leading
context, deletions, trailing context) with the fuzzy matcher, starting from
a cursor that begins at 0 and is advanced after each resolution to the
chunk's origin plus its deletion count.  A "not found" match fails with a
Resolution error. -/
def resolveLoop (orig : List String) : List DiffSection → Nat → Except ApplyError (List Chunk)
  | [], _ => .ok []
  | sec :: rest, cursor =>
    let expected := sec.lead_ctx ++ sec.del_lines ++ sec.trail_ctx
    let m := _find_context orig expected cursor sec.eof
    if m.new_index < 0 then .error (.resolution "hunk context not found")
    else
      let origin := m.new_index.toNat + sec.lead_ctx.length
      match resolveLoop orig rest (origin + sec.del_lines.length) with
      | .error e => .error e
      | .ok chunks => .ok (⟨origin, sec.del_lines, sec.ins_lines⟩ :: chunks)

/-- Modelled from the spec, section 4.6 (Chunk Applier): splice the chunks
into the original line sequence.  The cursor argument is the index of the
next original line not yet copied; a chunk whose range exceeds the
original's bounds or begins before the cursor fails with a Resolution
error. -/
def applyChunksLoop (orig : List String) : List Chunk → Nat → Except ApplyError (List String)
  | [], cursor => .ok (orig.drop cursor)
  | c :: rest, cursor =>
    if orig.length < c.orig_index + c.del_lines.length then
      .error (.resolution "chunk range outside the original's bounds")
    else if c.orig_index < cursor then
      .error (.resolution "overlapping chunks")
    else
      match applyChunksLoop orig rest (c.orig_index + c.del_lines.length) with
      | .error e => .error e
      | .ok tail => .ok ((orig.drop cursor).take (c.orig_index - cursor) ++ c.ins_lines ++ tail)

/-- Modelled from the spec, section 4.6: validate and apply the ordered
chunk list to the original line sequence. -/
def _apply_chunks (orig : List String) (chunks : List Chunk) : Except ApplyError (List String) :=
  applyChunksLoop orig chunks 0

/-- Modelled from the spec, sections 4.2 and 4.3: parse the diff lines into
the list of sections.  Each iteration optionally consumes one hunk marker
(a line starting with the double at-sign; any inline text after the marker
becomes one additional leading-context line of the following section) and
then reads one section.  The fuel argument bounds the recursion; every
iteration consumes at least one line, so `length + 1` fuel suffices. -/
def parseLoop (lines : List String) : Nat → Nat → Except ApplyError (List DiffSection)
  | _, 0 => .error (.format "unterminated diff")
  | index, fuel + 1 =>
    if _is_done ⟨lines, index⟩ [] then .ok []
    else
      let step :=
        match lines.get? index with
        | some l =>
          if l = "@@" then (none, index + 1)
          else if strHasPre "@@" l then
            let restLine := String.mk (l.data.drop 2)
            let restLine := if strHasPre " " restLine then String.mk (restLine.data.drop 1) else restLine
            (if restLine = "" then none else some restLine, index + 1)
          else ((none : Option String), index)
        | none => (none, index)
      match _read_section lines step.2 with
      | .error e => .error e
      | .ok (sec, idx3) =>
        let sec :=
          match step.1 with
          | some hint => { sec with lead_ctx := hint :: sec.lead_ctx }
          | none => sec
        match parseLoop lines idx3 fuel with
        | .error e => .error e
        | .ok rest => .ok (sec :: rest)

/-- Modelled from the spec, section 4.3: parse all sections of the diff. -/
def parseSections (lines : List String) : Except ApplyError (List DiffSection) :=
  parseLoop lines 0 (lines.length + 1)

/-- Modelled from the spec, section 4.7 (Create-Mode Builder): every
non-blank, non-hunk-marker line must begin with the insertion marker; any
line failing this check fails with a Format error; the output line sequence
is the qualifying lines with the marker stripped. -/
def buildCreate : List String → Except ApplyError (List String)
  | [] => .ok []
  | l :: rest =>
    if l = "" then buildCreate rest
    else if strHasPre "@@" l then buildCreate rest
    else if strHasPre "+" l then
      match buildCreate rest with
      | .error e => .error e
      | .ok out => .ok (strDropPre l :: out)
    else .error (.format "create mode requires every content line to be an addition")

/-- The mode flag of the entry point. -/
inductive ApplyMode where
  | update
  | create
deriving DecidableEq

/-- Modelled from the spec, sections 2 and 6 (entry point): normalize both
inputs, then run the create-mode path or the parse / match / resolve /
apply pipeline, and reassemble the final line sequence with the
trailing-newline convention. -/
def apply_diff (original diff : String) (mode : ApplyMode := ApplyMode.update) :
    Except ApplyError String :=
  match mode with
  | ApplyMode.create =>
    match buildCreate (_normalize_diff_lines diff) with
    | .error e => .error e
    | .ok out => .ok (reassemble out)
  | ApplyMode.update =>
    let origLines := _normalize_diff_lines original
    match parseSections (_normalize_diff_lines diff) with
    | .error e => .error e
    | .ok sections =>
      match resolveLoop origLines sections 0 with
      | .error e => .error e
      | .ok chunks =>
        match _apply_chunks origLines chunks with
        | .error e => .error e
        | .ok out => .ok (reassemble out)

/-!
Workspace editor from `examples/tools/apply_patch.py`.  Paths are embedded
as component lists; `Path.resolve` becomes the pure normalization of `.`
and `..` components (the escape check runs on the resolved path, so the
symlink-free model is faithful at that level).  Approval is modelled as
granted, since `_resolve` runs before and independently of approval.
-/

/-- A path operand: an absolute flag plus its components, mirroring
`Path(relative)` in `WorkspaceEditor._resolve`. -/
structure PurePath where
  absolute : Bool
  parts : List String
deriving DecidableEq

/-- Resolution of `.` and `..` components, mirroring `Path.resolve` on the
already-anchored absolute path (popping `..` at the root stays at the
root). -/
def normalizeParts (ps : List String) : List String :=
  ps.foldl
    (fun acc p =>
      if p = "." ∨ p = "" then acc
      else if p = ".." then acc.dropLast
      else acc ++ [p]) []

/-- One apply-patch operation as the editor sees it: the target path and
the diff text. -/
structure EditOperation where
  path : PurePath
  diff : String
deriving DecidableEq

/-- The resolved absolute target of an operation: the path itself when
absolute, else the workspace root joined with it, then normalized
(`target.resolve()` in `WorkspaceEditor._resolve`). -/
def resolvedTarget (root : List String) (op : EditOperation) : List String :=
  normalizeParts (if op.path.absolute then op.path.parts else root ++ op.path.parts)

/-- Model of `WorkspaceEditor._resolve`: resolve the operation path and require that
it stays inside the workspace root (`target.relative_to(self._root)`);
otherwise raise (`RuntimeError: Operation outside workspace`).  The
`ensure_parent` directory creation happens only after this check. -/
def WorkspaceEditor_resolve (root : List String) (op : EditOperation) :
    Except String (List String) :=
  let target := resolvedTarget root op
  if root.isPrefixOf target then .ok target
  else .error "Operation outside workspace"

/-- The workspace file system: resolved paths mapped to file contents. -/
structure FsState where
  files : List (List String × String)
deriving DecidableEq

/-- Write (create or overwrite) a file. -/
def fsWrite (fs : FsState) (p : List String) (content : String) : FsState :=
  ⟨(p, content) :: fs.files.filter (fun kv => !(kv.1 == p))⟩

/-- Read a file's content, if present. -/
def fsRead (fs : FsState) (p : List String) : Option String :=
  (fs.files.find? (fun kv => kv.1 == p)).map (fun kv => kv.2)

/-- Remove a file (missing files are ignored, as `unlink(missing_ok=True)`). -/
def fsDelete (fs : FsState) (p : List String) : FsState :=
  ⟨fs.files.filter (fun kv => !(kv.1 == p))⟩

/-- Model of `WorkspaceEditor.create_file`: resolve the display path, resolve the
target, synthesize the content with the create-mode engine, then write.
Any resolution failure aborts before the file system is touched. -/
def create_file (root : List String) (fs : FsState) (op : EditOperation) :
    Except String FsState :=
  match WorkspaceEditor_resolve root op with
  | .error e => .error e
  | .ok _ =>
    match WorkspaceEditor_resolve root op with
    | .error e => .error e
    | .ok target =>
      match apply_diff "" op.diff ApplyMode.create with
      | .error _ => .error "apply_diff failed"
      | .ok content => .ok (fsWrite fs target content)

/-- Model of `WorkspaceEditor.update_file`: resolve, read the current content, patch
it in update mode, then write back.  Any resolution failure aborts before
the file system is touched. -/
def update_file (root : List String) (fs : FsState) (op : EditOperation) :
    Except String FsState :=
  match WorkspaceEditor_resolve root op with
  | .error e => .error e
  | .ok _ =>
    match WorkspaceEditor_resolve root op with
    | .error e => .error e
    | .ok target =>
      match fsRead fs target with
      | none => .error "file not found"
      | some original =>
        match apply_diff original op.diff ApplyMode.update with
        | .error _ => .error "apply_diff failed"
        | .ok patched => .ok (fsWrite fs target patched)

/-- Model of `WorkspaceEditor.delete_file`: resolve, then unlink.  Any resolution
failure aborts before the file system is touched. -/
def delete_file (root : List String) (fs : FsState) (op : EditOperation) :
    Except String FsState :=
  match WorkspaceEditor_resolve root op with
  | .error e => .error e
  | .ok _ =>
    match WorkspaceEditor_resolve root op with
    | .error e => .error e
    | .ok target => .ok (fsDelete fs target)

/-!
Specification-side predicates used by the claim statements.
-/

/-- An exact candidate window for the expected lines at position `i`. -/
def exactWindowAt (lines ctx : List String) (i : Nat) : Prop :=
  i + ctx.length ≤ lines.length ∧ (lines.drop i).take ctx.length = ctx

/-- A candidate window at position `i` equal to the expected lines after
trimming leading and trailing whitespace on both sides per line. -/
def trimWindowAt (lines ctx : List String) (i : Nat) : Prop :=
  i + ctx.length ≤ lines.length ∧
    ((lines.drop i).take ctx.length).map strTrim = ctx.map strTrim

instance (lines ctx : List String) (i : Nat) : Decidable (exactWindowAt lines ctx i) := by
  unfold exactWindowAt; infer_instance

instance (lines ctx : List String) (i : Nat) : Decidable (trimWindowAt lines ctx i) := by
  unfold trimWindowAt; infer_instance

/-- Every chunk's range lies within the original's bounds. -/
def chunkInBounds (origLen : Nat) (c : Chunk) : Prop :=
  c.orig_index + c.del_lines.length ≤ origLen

instance (origLen : Nat) (c : Chunk) : Decidable (chunkInBounds origLen c) := by
  unfold chunkInBounds; infer_instance

/-- Chunks reference strictly increasing, non-overlapping line ranges: for
any two chunks `i < j` in application order,
`chunk[i].orig_index + len(chunk[i].del_lines) <= chunk[j].orig_index`. -/
def chunksSeparated (chunks : List Chunk) : Prop :=
  List.Pairwise (fun a b => a.orig_index + a.del_lines.length ≤ b.orig_index) chunks

/-!
General lemmas about the helpers.
-/

theorem scanFirst_eq_none {f : Nat → Bool} :
    ∀ (n i : Nat), (∀ j, i ≤ j → j < i + n → f j = false) → scanFirst f i n = none := by
  intro n
  induction n with
  | zero => intro i _; rfl
  | succ n ih =>
    intro i h
    have h0 : f i = false := h i (Nat.le_refl i) (by omega)
    simp only [scanFirst, h0, Bool.false_eq_true, if_false]
    exact ih (i + 1) (fun j hj1 hj2 => h j (by omega) (by omega))

theorem scanFirst_some {f : Nat → Bool} :
    ∀ (n i j : Nat), i ≤ j → j < i + n → f j = true →
      ∃ k, scanFirst f i n = some k := by
  intro n
  induction n with
  | zero => intro i j h1 h2 _; omega
  | succ n ih =>
    intro i j h1 h2 hf
    by_cases h0 : f i = true
    · exact ⟨i, by simp [scanFirst, h0]⟩
    · have hne : i ≠ j := fun he => h0 (he ▸ hf)
      obtain ⟨k, hk⟩ := ih (i + 1) j (by omega) (by omega) hf
      exact ⟨k, by simp [scanFirst, h0, hk]⟩

theorem sliceEq_iff {lines ctx : List String} {i : Nat} :
    sliceEq lines ctx i = true ↔ (lines.drop i).take ctx.length = ctx := by
  simp [sliceEq]

theorem sliceEqTrim_iff {lines ctx : List String} {i : Nat} :
    sliceEqTrim lines ctx i = true ↔
      ((lines.drop i).take ctx.length).map strTrim = ctx.map strTrim := by
  simp [sliceEqTrim]

theorem exactWindowAt_of_sliceEq {lines ctx : List String} {i : Nat}
    (hctx : ctx ≠ []) (h : sliceEq lines ctx i = true) : exactWindowAt lines ctx i := by
  have heq := sliceEq_iff.mp h
  have hlen : ((lines.drop i).take ctx.length).length = ctx.length := by rw [heq]
  simp only [List.length_take, List.length_drop] at hlen
  have hc : 0 < ctx.length := List.length_pos.mpr hctx
  exact ⟨by omega, heq⟩

theorem trimWindowAt_of_sliceEqTrim {lines ctx : List String} {i : Nat}
    (hctx : ctx ≠ []) (h : sliceEqTrim lines ctx i = true) : trimWindowAt lines ctx i := by
  have heq := sliceEqTrim_iff.mp h
  have hlen : (((lines.drop i).take ctx.length).map strTrim).length =
      (ctx.map strTrim).length := by rw [heq]
  simp only [List.length_map, List.length_take, List.length_drop] at hlen
  have hc : 0 < ctx.length := List.length_pos.mpr hctx
  exact ⟨by omega, heq⟩

theorem sliceEq_of_exactWindowAt {lines ctx : List String} {i : Nat}
    (h : exactWindowAt lines ctx i) : sliceEq lines ctx i = true :=
  sliceEq_iff.mpr h.2

theorem sliceEqTrim_of_trimWindowAt {lines ctx : List String} {i : Nat}
    (h : trimWindowAt lines ctx i) : sliceEqTrim lines ctx i = true :=
  sliceEqTrim_iff.mpr h.2

theorem find_core_fuzz_zero {lines ctx : List String} {start : Nat}
    (h : ∃ j, start ≤ j ∧ exactWindowAt lines ctx j) :
    ∃ k, _find_context_core lines ctx start = ⟨Int.ofNat k, 0⟩ := by
  by_cases hctx : ctx = []
  · exact ⟨start, by simp [_find_context_core, hctx]⟩
  · obtain ⟨j, hj1, hj2⟩ := h
    have hc : 0 < ctx.length := List.length_pos.mpr hctx
    have hscan : ∃ k, scanFirst (sliceEq lines ctx) start (lines.length - start) = some k := by
      refine scanFirst_some _ start j hj1 (by have := hj2.1; omega) ?_
      exact sliceEq_of_exactWindowAt hj2
    obtain ⟨k, hk⟩ := hscan
    exact ⟨k, by simp [_find_context_core, hctx, hk]⟩

theorem find_core_fuzz_hundred {lines ctx : List String} {start : Nat}
    (hne : ∀ j, start ≤ j → ¬ exactWindowAt lines ctx j)
    (h : ∃ j, start ≤ j ∧ trimWindowAt lines ctx j) :
    ∃ k, _find_context_core lines ctx start = ⟨Int.ofNat k, 100⟩ := by
  have hctx : ctx ≠ [] := by
    rintro rfl
    obtain ⟨j, hj1, hj2⟩ := h
    exact hne j hj1 ⟨hj2.1, by simp⟩
  have hc : 0 < ctx.length := List.length_pos.mpr hctx
  have hnone : scanFirst (sliceEq lines ctx) start (lines.length - start) = none := by
    refine scanFirst_eq_none _ start (fun j hj1 _ => ?_)
    by_contra hcon
    have ht : sliceEq lines ctx j = true := by
      cases hsl : sliceEq lines ctx j
      · exact absurd hsl hcon
      · rfl
    exact hne j hj1 (exactWindowAt_of_sliceEq hctx ht)
  obtain ⟨j, hj1, hj2⟩ := h
  have hscan : ∃ k, scanFirst (sliceEqTrim lines ctx) start (lines.length - start) = some k := by
    refine scanFirst_some _ start j hj1 (by have := hj2.1; omega) ?_
    exact sliceEqTrim_of_trimWindowAt hj2
  obtain ⟨k, hk⟩ := hscan
  exact ⟨k, by simp [_find_context_core, hctx, hnone, hk]⟩

theorem find_core_not_found {lines ctx : List String}
    (h : ∀ j, ¬ exactWindowAt lines ctx j ∧ ¬ trimWindowAt lines ctx j) :
    ∀ s, _find_context_core lines ctx s = ⟨-1, 10000⟩ := by
  intro s
  have hctx : ctx ≠ [] := by
    rintro rfl
    exact (h lines.length).1 ⟨by simp, by simp⟩
  have hnone1 : scanFirst (sliceEq lines ctx) s (lines.length - s) = none := by
    refine scanFirst_eq_none _ s (fun j _ _ => ?_)
    cases hsl : sliceEq lines ctx j
    · rfl
    · exact absurd (exactWindowAt_of_sliceEq hctx hsl) (h j).1
  have hnone2 : scanFirst (sliceEqTrim lines ctx) s (lines.length - s) = none := by
    refine scanFirst_eq_none _ s (fun j _ _ => ?_)
    cases hsl : sliceEqTrim lines ctx j
    · rfl
    · exact absurd (trimWindowAt_of_sliceEqTrim hctx hsl) (h j).2
  simp [_find_context_core, hctx, hnone1, hnone2]

theorem find_context_not_found {lines ctx : List String}
    (h : ∀ j, ¬ exactWindowAt lines ctx j ∧ ¬ trimWindowAt lines ctx j) :
    ∀ s eof, _find_context lines ctx s eof = ⟨-1, 10000⟩ := by
  intro s eof
  have h1 := find_core_not_found h s
  have h2 := find_core_not_found h (lines.length - ctx.length)
  cases eof <;> simp [_find_context, h1, h2]

/-!
Claim theorems.
-/

/-- C1: for the update-mode entry point, applying the diff
`"@@ line1\n-line2\n+updated\n line3"` to `"line1\nline2\nline3\n"`
succeeds and returns exactly `"line1\nupdated\nline3\n"`: the deletion line
is replaced by the insertion line, the surrounding context lines are
preserved, and the trailing newline is kept. -/
theorem claim_C1_contextual_replacement :
    apply_diff "line1\nline2\nline3\n" "@@ line1\n-line2\n+updated\n line3" ApplyMode.update =
      .ok "line1\nupdated\nline3\n" := rfl

/-- C9: in update mode, a hunk with no context lines and no deletion lines
applied to an empty original inserts its insertion lines:
`apply_diff("", "@@\n+hello\n+world")` returns `"hello\nworld\n"`. -/
theorem claim_C9_floating_hunk_insertion :
    apply_diff "" "@@\n+hello\n+world" ApplyMode.update = .ok "hello\nworld\n" := rfl

/-- C8: reading a section whose current diff line is the
`"*** End of File"` marker succeeds and sets the section's eof flag;
reading a section whose current line is the unrecognized marker-like line
`"*** Bad Marker"` fails with a Format error; and reading a section when no
diff lines remain at all fails with a Format error. -/
theorem claim_C8_section_reader_markers :
    _read_section ["*** End of File"] 0 = .ok (⟨[], [], [], [], true⟩, 1) ∧
    (∃ msg, _read_section ["*** Bad Marker"] 0 = .error (.format msg)) ∧
    (∃ msg, _read_section ([] : List String) 0 = .error (.format msg)) :=
  ⟨rfl, ⟨"unrecognized marker: *** Bad Marker", rfl⟩,
    ⟨"a section must contain at least one directive line", rfl⟩⟩

/-- C4: every failure of apply is either a Format error or a Resolution
error, the two kinds distinguishable by the caller via the tagged error
constructors; applying to `"one\ntwo\n"` a hunk whose leading context line
`"x"` is not present fails with a Resolution error, distinguishable from
the Format error raised for a malformed create-mode diff. -/
theorem claim_C4_error_kinds :
    (∀ (o d : String) (m : ApplyMode),
        (∃ s, apply_diff o d m = .ok s) ∨
        (∃ msg, apply_diff o d m = .error (.format msg)) ∨
        (∃ msg, apply_diff o d m = .error (.resolution msg))) ∧
    (∃ msg, apply_diff "one\ntwo\n" "@@ -1,2 +1,2 @@\n x\n-two\n+2" ApplyMode.update =
        .error (.resolution msg)) ∧
    (∃ msg, apply_diff "" "plain line" ApplyMode.create = .error (.format msg)) ∧
    (∀ m1 m2, ApplyError.format m1 ≠ ApplyError.resolution m2) := by
  refine ⟨?_, ⟨"hunk context not found", rfl⟩,
    ⟨"create mode requires every content line to be an addition", rfl⟩, ?_⟩
  · intro o d m
    match h : apply_diff o d m with
    | .ok s => exact .inl ⟨s, rfl⟩
    | .error (.format msg) => exact .inr (.inl ⟨msg, rfl⟩)
    | .error (.resolution msg) => exact .inr (.inr ⟨msg, rfl⟩)
  · intro m1 m2 h
    cases h

/-- C2: the fuzzy context matcher returns fuzz 0 whenever some candidate
window at or after the start index equals the expected lines exactly;
returns fuzz 100 - a strictly positive cost below the sentinel threshold,
with a non-sentinel position - when the lines match only after trimming
leading and trailing whitespace on both sides per line; and when no tier
matches anywhere, even with the end-of-file tail fallback enabled, the
result carries the sentinel position -1 and a fuzz at or above 10000. -/
theorem claim_C2_fuzzy_match_tiers :
    (∀ (lines ctx : List String) (start j : Nat), start ≤ j → exactWindowAt lines ctx j →
        (_find_context_core lines ctx start).fuzz = 0 ∧
        (_find_context_core lines ctx start).new_index ≠ -1) ∧
    (∀ (lines ctx : List String) (start : Nat),
        (∀ j, start ≤ j → ¬ exactWindowAt lines ctx j) →
        (∃ j, start ≤ j ∧ trimWindowAt lines ctx j) →
        (_find_context_core lines ctx start).fuzz = 100 ∧
        0 < (_find_context_core lines ctx start).fuzz ∧
        (_find_context_core lines ctx start).fuzz < 10000 ∧
        (_find_context_core lines ctx start).new_index ≠ -1) ∧
    (∀ (lines ctx : List String) (start : Nat) (eof : Bool),
        (∀ j, ¬ exactWindowAt lines ctx j ∧ ¬ trimWindowAt lines ctx j) →
        (_find_context lines ctx start eof).new_index = -1 ∧
        10000 ≤ (_find_context lines ctx start eof).fuzz) := by
  refine ⟨?_, ?_, ?_⟩
  · intro lines ctx start j h1 h2
    obtain ⟨k, hk⟩ := find_core_fuzz_zero ⟨j, h1, h2⟩
    rw [hk]
    exact ⟨rfl, by simp⟩
  · intro lines ctx start hne h
    obtain ⟨k, hk⟩ := find_core_fuzz_hundred hne h
    rw [hk]
    refine ⟨rfl, ?_, ?_, by simp⟩
    · show (0 : Nat) < 100
      norm_num
    · show (100 : Nat) < 10000
      norm_num
  · intro lines ctx start eof h
    rw [find_context_not_found h start eof]
    exact ⟨rfl, by decide⟩

/-- Closed instantiation of the three parts of C2 at concrete inputs. -/
theorem claim_C2_fuzzy_match_tiers_witness :
    ((_find_context_core ["a", "b"] ["b"] 0).fuzz = 0 ∧
      (_find_context_core ["a", "b"] ["b"] 0).new_index ≠ -1) ∧
    ((_find_context_core [" line "] ["line"] 0).fuzz = 100 ∧
      0 < (_find_context_core [" line "] ["line"] 0).fuzz ∧
      (_find_context_core [" line "] ["line"] 0).fuzz < 10000 ∧
      (_find_context_core [" line "] ["line"] 0).new_index ≠ -1) ∧
    ((_find_context ["one"] ["missing"] 0 true).new_index = -1 ∧
      10000 ≤ (_find_context ["one"] ["missing"] 0 true).fuzz) := by
  refine ⟨claim_C2_fuzzy_match_tiers.1 ["a", "b"] ["b"] 0 1 (by omega) (by decide),
    claim_C2_fuzzy_match_tiers.2.1 [" line "] ["line"] 0 ?_ ⟨0, Nat.le_refl 0, by decide⟩,
    claim_C2_fuzzy_match_tiers.2.2 ["one"] ["missing"] 0 true ?_⟩
  · intro j _
    match j with
    | 0 => exact (by decide)
    | j + 1 =>
      rintro ⟨h1, -⟩
      simp only [List.length_cons, List.length_nil] at h1
      omega
  · intro j
    match j with
    | 0 => exact (by decide)
    | j + 1 =>
      constructor
      · rintro ⟨h1, -⟩
        simp only [List.length_cons, List.length_nil] at h1
        omega
      · rintro ⟨h1, -⟩
        simp only [List.length_cons, List.length_nil] at h1
        omega

theorem applyLoop_ok_inv {orig : List String} :
    ∀ (chunks : List Chunk) (cursor : Nat) (out : List String),
      applyChunksLoop orig chunks cursor = .ok out →
      chunksSeparated chunks ∧ (∀ c ∈ chunks, chunkInBounds orig.length c) ∧
        (∀ c ∈ chunks, cursor ≤ c.orig_index) := by
  intro chunks
  induction chunks with
  | nil =>
    intro cursor out _
    exact ⟨List.Pairwise.nil, by simp, by simp⟩
  | cons c rest ih =>
    intro cursor out h
    simp only [applyChunksLoop] at h
    by_cases h1 : orig.length < c.orig_index + c.del_lines.length
    · rw [if_pos h1] at h; cases h
    · rw [if_neg h1] at h
      by_cases h2 : c.orig_index < cursor
      · rw [if_pos h2] at h; cases h
      · rw [if_neg h2] at h
        cases hrec : applyChunksLoop orig rest (c.orig_index + c.del_lines.length) with
        | error e => rw [hrec] at h; cases h
        | ok tail =>
          obtain ⟨hp, hb, hc⟩ := ih (c.orig_index + c.del_lines.length) tail hrec
          refine ⟨List.Pairwise.cons (fun b hb' => hc b hb') hp, ?_, ?_⟩
          · intro x hx
            rcases List.mem_cons.mp hx with rfl | hx'
            · exact Nat.le_of_not_lt h1
            · exact hb x hx'
          · intro x hx
            rcases List.mem_cons.mp hx with rfl | hx'
            · exact Nat.le_of_not_lt h2
            · exact Nat.le_trans (Nat.le_of_not_lt h2)
                (Nat.le_trans (Nat.le_add_right _ _) (hc x hx'))

theorem applyLoop_err_form {orig : List String} :
    ∀ (chunks : List Chunk) (cursor : Nat),
      (∃ out, applyChunksLoop orig chunks cursor = .ok out) ∨
      (∃ msg, applyChunksLoop orig chunks cursor = .error (.resolution msg)) := by
  intro chunks
  induction chunks with
  | nil => intro cursor; exact .inl ⟨_, rfl⟩
  | cons c rest ih =>
    intro cursor
    simp only [applyChunksLoop]
    by_cases h1 : orig.length < c.orig_index + c.del_lines.length
    · rw [if_pos h1]; exact .inr ⟨_, rfl⟩
    · rw [if_neg h1]
      by_cases h2 : c.orig_index < cursor
      · rw [if_pos h2]; exact .inr ⟨_, rfl⟩
      · rw [if_neg h2]
        rcases ih (c.orig_index + c.del_lines.length) with ⟨out, hout⟩ | ⟨msg, hmsg⟩
        · rw [hout]; exact .inl ⟨_, rfl⟩
        · rw [hmsg]; exact .inr ⟨_, rfl⟩

/-- C3: chunks that survive resolution and application reference strictly
increasing, non-overlapping, in-bounds line ranges of the original (for
any two chunks `i < j` in order,
`chunk[i].orig_index + len(chunk[i].del_lines) <= chunk[j].orig_index`);
and the chunk applier, given any chunk list however it was produced, fails
with a Resolution error whenever some chunk's range falls outside the
original's bounds or the ranges are not strictly increasing and
non-overlapping. -/
theorem claim_C3_chunk_invariants :
    (∀ (orig : List String) (sections : List DiffSection) (cursor : Nat)
        (chunks : List Chunk) (out : List String),
        resolveLoop orig sections cursor = .ok chunks →
        _apply_chunks orig chunks = .ok out →
        chunksSeparated chunks ∧ ∀ c ∈ chunks, chunkInBounds orig.length c) ∧
    (∀ (orig : List String) (chunks : List Chunk),
        ¬ (chunksSeparated chunks ∧ ∀ c ∈ chunks, chunkInBounds orig.length c) →
        ∃ msg, _apply_chunks orig chunks = .error (.resolution msg)) := by
  constructor
  · intro orig sections cursor chunks out _ happ
    obtain ⟨hp, hb, -⟩ := applyLoop_ok_inv chunks 0 out happ
    exact ⟨hp, hb⟩
  · intro orig chunks hnot
    rcases applyLoop_err_form chunks 0 with ⟨out, hout⟩ | ⟨msg, hmsg⟩
    · obtain ⟨hp, hb, -⟩ := applyLoop_ok_inv chunks 0 out hout
      exact absurd ⟨hp, hb⟩ hnot
    · exact ⟨msg, hmsg⟩

/-- Closed instantiation of C3: a resolved-and-applied chunk list satisfies
the invariant, and the out-of-bounds chunk from the helper tests is
rejected with a Resolution error. -/
theorem claim_C3_chunk_invariants_witness :
    (chunksSeparated [Chunk.mk 0 [] []] ∧
      ∀ c ∈ [Chunk.mk 0 [] []], chunkInBounds (["a"] : List String).length c) ∧
    (∃ msg, _apply_chunks ["a", "b", "c"] [Chunk.mk 10 [] []] = .error (.resolution msg)) :=
  ⟨claim_C3_chunk_invariants.1 ["a"] [emptySection] 0 [Chunk.mk 0 [] []] ["a"] rfl rfl,
    claim_C3_chunk_invariants.2 ["a", "b", "c"] [Chunk.mk 10 [] []] (by
      rintro ⟨-, hb⟩
      exact absurd (hb (Chunk.mk 10 [] []) (by simp)) (by decide))⟩

theorem hasPre_at_not_plus {l : String} (h : strHasPre "@@" l = true) :
    strHasPre "+" l = false := by
  unfold strHasPre at h ⊢
  rw [show ("@@" : String).data = ['@', '@'] from rfl] at h
  rw [show ("+" : String).data = ['+'] from rfl]
  cases hd : l.data with
  | nil => rw [hd] at h; simp [List.isPrefixOf] at h
  | cons c cs =>
    rw [hd] at h
    simp only [List.isPrefixOf, Bool.and_eq_true, beq_iff_eq] at h
    obtain ⟨rfl, -⟩ := h
    simp only [List.isPrefixOf, show ('+' == '@') = false from rfl, Bool.false_and]

theorem buildCreate_err : ∀ (ls : List String),
    (∃ l, l ∈ ls ∧ l ≠ "" ∧ strHasPre "@@" l = false ∧ strHasPre "+" l = false) →
    ∃ msg, buildCreate ls = .error (.format msg) := by
  intro ls
  induction ls with
  | nil => rintro ⟨l, hl, -⟩; cases hl
  | cons a rest ih =>
    rintro ⟨l, hl, hprop⟩
    by_cases ha1 : a = ""
    · subst ha1
      rcases List.mem_cons.mp hl with rfl | hmem
      · exact absurd rfl hprop.1
      · obtain ⟨msg, hmsg⟩ := ih ⟨l, hmem, hprop⟩
        exact ⟨msg, by simpa [buildCreate] using hmsg⟩
    · by_cases ha2 : strHasPre "@@" a = true
      · rcases List.mem_cons.mp hl with rfl | hmem
        · rw [hprop.2.1] at ha2; cases ha2
        · obtain ⟨msg, hmsg⟩ := ih ⟨l, hmem, hprop⟩
          exact ⟨msg, by simpa [buildCreate, ha1, ha2] using hmsg⟩
      · by_cases ha3 : strHasPre "+" a = true
        · rcases List.mem_cons.mp hl with rfl | hmem
          · rw [hprop.2.2] at ha3; cases ha3
          · obtain ⟨msg, hmsg⟩ := ih ⟨l, hmem, hprop⟩
            refine ⟨msg, ?_⟩
            simp only [buildCreate, if_neg ha1, ha2, ha3, if_true, if_false,
              Bool.false_eq_true, hmsg]
        · refine ⟨"create mode requires every content line to be an addition", ?_⟩
          simp only [buildCreate, if_neg ha1]
          rw [if_neg (by simpa using ha2), if_neg (by simpa using ha3)]

theorem buildCreate_ok : ∀ (ls out : List String),
    buildCreate ls = .ok out →
    out = (ls.filter (fun l => strHasPre "+" l)).map strDropPre := by
  intro ls
  induction ls with
  | nil => intro out h; cases h; rfl
  | cons a rest ih =>
    intro out h
    by_cases ha1 : a = ""
    · subst ha1
      have hf : strHasPre "+" "" = false := rfl
      rw [List.filter_cons_of_neg (by simp [hf])]
      exact ih out (by simpa [buildCreate] using h)
    · by_cases ha2 : strHasPre "@@" a = true
      · rw [List.filter_cons_of_neg (by simp [hasPre_at_not_plus ha2])]
        refine ih out ?_
        simpa [buildCreate, ha1, ha2] using h
      · by_cases ha3 : strHasPre "+" a = true
        · rw [List.filter_cons_of_pos (by simpa using ha3)]
          simp only [buildCreate, if_neg ha1, ha2, ha3, if_true, if_false,
            Bool.false_eq_true] at h
          cases hrec : buildCreate rest with
          | error e => rw [hrec] at h; cases h
          | ok out' =>
            rw [hrec] at h
            cases h
            simp only [List.map_cons]
            rw [ih out' hrec]
        · simp only [buildCreate, if_neg ha1] at h
          rw [if_neg (by simpa using ha2), if_neg (by simpa using ha3)] at h
          cases h

/-- C5: in create mode every non-blank, non-hunk-marker line of the diff
must begin with the insertion marker - apply fails with a Format error on
any diff containing a content line without it; on success the output is
the reassembly of exactly the qualifying lines with the marker stripped;
and the create path never consults the original text. -/
theorem claim_C5_create_mode_contract :
    (∀ (original diff : String),
        (∃ l, l ∈ _normalize_diff_lines diff ∧ l ≠ "" ∧
            strHasPre "@@" l = false ∧ strHasPre "+" l = false) →
        ∃ msg, apply_diff original diff ApplyMode.create = .error (.format msg)) ∧
    (∀ (original diff : String) (out : String),
        apply_diff original diff ApplyMode.create = .ok out →
        out = reassemble
          (((_normalize_diff_lines diff).filter (fun l => strHasPre "+" l)).map strDropPre)) ∧
    (∀ (o o' diff : String),
        apply_diff o diff ApplyMode.create = apply_diff o' diff ApplyMode.create) := by
  refine ⟨?_, ?_, fun o o' d => rfl⟩
  · intro original diff h
    obtain ⟨msg, hmsg⟩ := buildCreate_err _ h
    exact ⟨msg, by simp [apply_diff, hmsg]⟩
  · intro original diff out h
    simp only [apply_diff] at h
    cases hb : buildCreate (_normalize_diff_lines diff) with
    | error e => rw [hb] at h; cases h
    | ok ls =>
      rw [hb] at h
      cases h
      rw [buildCreate_ok _ _ hb]

/-- Closed instantiation of C5: the `"plain line"` create diff is rejected
with a Format error, and a successful create output is the reassembled
stripped insertion lines. -/
theorem claim_C5_create_mode_contract_witness :
    (∃ msg, apply_diff "" "plain line" ApplyMode.create = .error (.format msg)) ∧
    "a\n" = reassemble
      (((_normalize_diff_lines "+a").filter (fun l => strHasPre "+" l)).map strDropPre) :=
  ⟨claim_C5_create_mode_contract.1 "" "plain line"
      ⟨"plain line", by decide, by decide, rfl, rfl⟩,
    claim_C5_create_mode_contract.2.1 "" "+a" "a\n" rfl⟩

theorem reassemble_ends (ls : List String) :
    (reassemble ls).data.getLast? = some '\n' := by
  show (reasmChars (ls.map String.data)).getLast? = some '\n'
  unfold reasmChars
  by_cases h : (joinNlChars (ls.map String.data)).getLast? = some '\n'
  · rw [if_pos h]; exact h
  · rw [if_neg h]
    simp

theorem apply_ok_reassemble {o d : String} {m : ApplyMode} {out : String}
    (h : apply_diff o d m = .ok out) : ∃ ls, out = reassemble ls := by
  cases m with
  | create =>
    simp only [apply_diff] at h
    cases hb : buildCreate (_normalize_diff_lines d) with
    | error e => rw [hb] at h; cases h
    | ok ls => rw [hb] at h; cases h; exact ⟨ls, rfl⟩
  | update =>
    simp only [apply_diff] at h
    split at h
    · cases h
    · split at h
      · cases h
      · split at h
        · cases h
        · exact ⟨_, (Except.ok.inj h).symm⟩

/-- C6: an explicit empty terminal insertion line and its absence produce
identical output - `apply("", "+hello\n+world\n+", create)` equals
`apply("", "@@\n+hello\n+world", create)`, both `"hello\nworld\n"` -
because reassembly joins the final lines with newline separators and
appends one final newline exactly when the result does not already end
with one, so every successful output ends with a trailing newline. -/
theorem claim_C6_trailing_newline_equivalence :
    apply_diff "" "+hello\n+world\n+" ApplyMode.create =
      apply_diff "" "@@\n+hello\n+world" ApplyMode.create ∧
    apply_diff "" "+hello\n+world\n+" ApplyMode.create = .ok "hello\nworld\n" ∧
    (∀ (ls : List String),
        ((joinNlChars (ls.map String.data)).getLast? = some '\n' →
          reassemble ls = String.mk (joinNlChars (ls.map String.data))) ∧
        ((joinNlChars (ls.map String.data)).getLast? ≠ some '\n' →
          reassemble ls = String.mk (joinNlChars (ls.map String.data) ++ ['\n']))) ∧
    (∀ (o d : String) (m : ApplyMode) (out : String),
        apply_diff o d m = .ok out → out.data.getLast? = some '\n') := by
  refine ⟨rfl, rfl, ?_, ?_⟩
  · intro ls
    constructor
    · intro h; simp [reassemble, reasmChars, h]
    · intro h; simp [reassemble, reasmChars, h]
  · intro o d m out h
    obtain ⟨ls, rfl⟩ := apply_ok_reassemble h
    exact reassemble_ends ls

/-- Closed instantiation of C6: the reassembly rule appends the final
newline for a line sequence not ending in one, and a concrete successful
apply output ends with a newline. -/
theorem claim_C6_trailing_newline_equivalence_witness :
    reassemble ["x"] = String.mk (joinNlChars ((["x"] : List String).map String.data) ++ ['\n']) ∧
    ("a\n" : String).data.getLast? = some '\n' :=
  ⟨(claim_C6_trailing_newline_equivalence.2.2.1 ["x"]).2 (by decide),
    claim_C6_trailing_newline_equivalence.2.2.2 "" "+a" ApplyMode.create "a\n" rfl⟩

/-- C10: for every apply-patch operation handled by the workspace editor,
the resolved target path must stay inside the workspace root - an
operation path whose resolution escapes the root makes the resolve step
fail with the "Operation outside workspace" error before any file is
created, read, updated, or deleted, uniformly across `create_file`,
`update_file`, and `delete_file`. -/
theorem claim_C10_workspace_containment :
    ∀ (root : List String) (fs : FsState) (op : EditOperation),
      root.isPrefixOf (resolvedTarget root op) = false →
      WorkspaceEditor_resolve root op = .error "Operation outside workspace" ∧
      create_file root fs op = .error "Operation outside workspace" ∧
      update_file root fs op = .error "Operation outside workspace" ∧
      delete_file root fs op = .error "Operation outside workspace" := by
  intro root fs op h
  have hres : WorkspaceEditor_resolve root op = .error "Operation outside workspace" := by
    simp [WorkspaceEditor_resolve, h]
  refine ⟨hres, ?_, ?_, ?_⟩
  · simp [create_file, hres]
  · simp [update_file, hres]
  · simp [delete_file, hres]

/-- Closed instantiation of C10 at a path that climbs out of the
workspace root through a parent component. -/
theorem claim_C10_workspace_containment_witness :
    WorkspaceEditor_resolve ["ws"] ⟨⟨false, ["..", "etc", "x"]⟩, ""⟩ =
      .error "Operation outside workspace" ∧
    create_file ["ws"] ⟨[]⟩ ⟨⟨false, ["..", "etc", "x"]⟩, ""⟩ =
      .error "Operation outside workspace" ∧
    update_file ["ws"] ⟨[]⟩ ⟨⟨false, ["..", "etc", "x"]⟩, ""⟩ =
      .error "Operation outside workspace" ∧
    delete_file ["ws"] ⟨[]⟩ ⟨⟨false, ["..", "etc", "x"]⟩, ""⟩ =
      .error "Operation outside workspace" :=
  claim_C10_workspace_containment ["ws"] ⟨[]⟩ ⟨⟨false, ["..", "etc", "x"]⟩, ""⟩ (by decide)

theorem splitNlChars_ne_nil : ∀ cs : List Char, splitNlChars cs ≠ [] := by
  intro cs
  induction cs with
  | nil => simp [splitNlChars]
  | cons c rest ih =>
    by_cases h : c = '\n'
    · simp [splitNlChars, h]
    · simp only [splitNlChars, if_neg h]
      cases hs : splitNlChars rest with
      | nil => simp
      | cons a t => simp

theorem splitNlChars_cons_nl (cs : List Char) :
    splitNlChars ('\n' :: cs) = [] :: splitNlChars cs := by
  simp [splitNlChars]

theorem splitNlChars_cons_ne (c : Char) (cs : List Char) (h : c ≠ '\n') :
    ∀ a t, splitNlChars cs = a :: t → splitNlChars (c :: cs) = (c :: a) :: t := by
  intro a t hs
  simp [splitNlChars, h, hs]

theorem nl_not_mem_splitNlChars : ∀ (cs l : List Char),
    l ∈ splitNlChars cs → '\n' ∉ l := by
  intro cs
  induction cs with
  | nil =>
    intro l hl
    simp only [splitNlChars, List.mem_singleton] at hl
    subst hl
    simp
  | cons c rest ih =>
    intro l hl
    by_cases h : c = '\n'
    · subst h
      rw [splitNlChars_cons_nl] at hl
      rcases List.mem_cons.mp hl with rfl | hl'
      · simp
      · exact ih l hl'
    · cases hs : splitNlChars rest with
      | nil => exact absurd hs (splitNlChars_ne_nil rest)
      | cons a t =>
        rw [splitNlChars_cons_ne c rest h a t hs] at hl
        rcases List.mem_cons.mp hl with rfl | hl'
        · intro hmem
          rcases List.mem_cons.mp hmem with he | hmem'
          · exact h he.symm
          · exact ih a (by rw [hs]; exact List.mem_cons_self a t) hmem'
        · exact ih l (by rw [hs]; exact List.mem_cons_of_mem a hl')

theorem splitNlChars_append_nl : ∀ (l cs : List Char), '\n' ∉ l →
    splitNlChars (l ++ '\n' :: cs) = l :: splitNlChars cs := by
  intro l
  induction l with
  | nil =>
    intro cs _
    simp [splitNlChars_cons_nl]
  | cons c l' ih =>
    intro cs hmem
    rw [List.mem_cons] at hmem
    push_neg at hmem
    obtain ⟨h1, h2⟩ := hmem
    have hrec := ih cs h2
    rw [List.cons_append]
    exact splitNlChars_cons_ne c (l' ++ '\n' :: cs) (fun he => h1 he.symm) l'
      (splitNlChars cs) hrec

theorem splitNlChars_concat_nl : ∀ cs : List Char,
    splitNlChars (cs ++ ['\n']) = splitNlChars cs ++ [[]] := by
  intro cs
  induction cs with
  | nil => simp [splitNlChars]
  | cons c rest ih =>
    by_cases h : c = '\n'
    · subst h
      rw [List.cons_append, splitNlChars_cons_nl, splitNlChars_cons_nl, ih]
      simp
    · rw [List.cons_append]
      cases hs : splitNlChars rest with
      | nil => exact absurd hs (splitNlChars_ne_nil rest)
      | cons a t =>
        have h1 : splitNlChars (rest ++ ['\n']) = a :: (t ++ [[]]) := by
          rw [ih, hs]
          simp
        rw [splitNlChars_cons_ne c (rest ++ ['\n']) h a (t ++ [[]]) h1,
          splitNlChars_cons_ne c rest h a t hs]
        simp

theorem splitNlChars_join_concat : ∀ (L : List (List Char)), L ≠ [] →
    (∀ l ∈ L, '\n' ∉ l) →
    splitNlChars (joinNlChars L ++ ['\n']) = L ++ [[]] := by
  intro L
  induction L with
  | nil => intro h _; exact absurd rfl h
  | cons l rest ih =>
    intro _ hmem
    cases rest with
    | nil =>
      show splitNlChars (l ++ '\n' :: []) = [l, []]
      rw [splitNlChars_append_nl l [] (hmem l (List.mem_cons_self l []))]
      rfl
    | cons r rest' =>
      show splitNlChars ((l ++ '\n' :: joinNlChars (r :: rest')) ++ ['\n']) =
        (l :: r :: rest') ++ [[]]
      have hassoc : (l ++ '\n' :: joinNlChars (r :: rest')) ++ ['\n'] =
          l ++ '\n' :: (joinNlChars (r :: rest') ++ ['\n']) := by
        simp
      rw [hassoc, splitNlChars_append_nl l _ (hmem l (List.mem_cons_self _ _)),
        ih (by simp) (fun x hx => hmem x (List.mem_cons_of_mem _ hx))]
      rfl

theorem joinNlChars_getLast : ∀ (L : List (List Char)) (l : List Char),
    L.getLast? = some l → l ≠ [] →
    (joinNlChars L).getLast? = l.getLast? := by
  intro L
  induction L with
  | nil => intro l h _; cases h
  | cons a rest ih =>
    intro l h hne
    cases rest with
    | nil =>
      have ha : a = l := by
        have : (([a] : List (List Char))).getLast? = some a := rfl
        rw [this] at h
        exact Option.some.inj h
      subst ha
      rfl
    | cons b rest' =>
      have h' : (b :: rest').getLast? = some l := by
        rw [← h, List.getLast?_cons_cons]
      have hJ : (joinNlChars (b :: rest')).getLast? = l.getLast? := ih l h' hne
      obtain ⟨c, hc⟩ : ∃ c, l.getLast? = some c := by
        cases hl : l.getLast? with
        | none => exact absurd (List.getLast?_eq_none_iff.mp hl) hne
        | some c => exact ⟨c, rfl⟩
      show (a ++ '\n' :: joinNlChars (b :: rest')).getLast? = l.getLast?
      rw [List.getLast?_append]
      have hsome : ('\n' :: joinNlChars (b :: rest')).getLast? = some c := by
        cases hJ' : joinNlChars (b :: rest') with
        | nil =>
          rw [hJ', hc] at hJ
          cases hJ
        | cons x xs =>
          rw [List.getLast?_cons_cons, ← hJ', hJ, hc]
      rw [hsome, hc]
      rfl

theorem splitNlChars_concat_ne (c : Char) (hc : c ≠ '\n') :
    ∀ ds : List Char, (splitNlChars (ds ++ [c])).getLast? ≠ some [] := by
  intro ds
  induction ds with
  | nil =>
    have h0 : splitNlChars ([] ++ [c]) = [[c]] := by
      simp [splitNlChars, hc]
    rw [h0]
    simp
  | cons d ds' ih =>
    by_cases hd : d = '\n'
    · subst hd
      rw [List.cons_append, splitNlChars_cons_nl]
      cases hs : splitNlChars (ds' ++ [c]) with
      | nil => exact absurd hs (splitNlChars_ne_nil _)
      | cons a t =>
        rw [List.getLast?_cons_cons, ← hs]
        exact ih
    · rw [List.cons_append]
      cases hs : splitNlChars (ds' ++ [c]) with
      | nil => exact absurd hs (splitNlChars_ne_nil _)
      | cons a t =>
        rw [splitNlChars_cons_ne d (ds' ++ [c]) hd a t hs]
        cases t with
        | nil =>
          rw [hs] at ih
          intro hcon
          have : d :: a = [] := Option.some.inj hcon
          cases this
        | cons t1 ts =>
          rw [List.getLast?_cons_cons]
          rw [hs, List.getLast?_cons_cons] at ih
          exact ih

theorem normChars_reasmChars (L : List (List Char))
    (hfree : ∀ l ∈ L, '\n' ∉ l)
    (hgood : L = [[]] ∨ ∃ l, L.getLast? = some l ∧ l ≠ []) :
    normChars (reasmChars L) = L := by
  rcases hgood with rfl | ⟨l, hlast, hne⟩
  · decide
  · have hLne : L ≠ [] := by rintro rfl; cases hlast
    have hlfree : '\n' ∉ l := hfree l (List.mem_of_getLast?_eq_some hlast)
    obtain ⟨c, hc⟩ : ∃ c, l.getLast? = some c := by
      cases hl : l.getLast? with
      | none => exact absurd (List.getLast?_eq_none_iff.mp hl) hne
      | some c => exact ⟨c, rfl⟩
    have hcne : c ≠ '\n' := fun he =>
      hlfree (he ▸ List.mem_of_getLast?_eq_some hc)
    have hJ : (joinNlChars L).getLast? = some c := by
      rw [joinNlChars_getLast L l hlast hne, hc]
    have hres : reasmChars L = joinNlChars L ++ ['\n'] := by
      unfold reasmChars
      rw [if_neg]
      rw [hJ]
      simp [hcne]
    rw [hres]
    unfold normChars
    rw [splitNlChars_join_concat L hLne hfree]
    simp [List.getLast?_concat, List.dropLast_concat]

theorem normChars_good_last (cs : List Char) (hne : cs ≠ [])
    (hsuf : List.isSuffixOf ['\n', '\n'] cs = false) :
    normChars cs = [[]] ∨ ∃ l, (normChars cs).getLast? = some l ∧ l ≠ [] := by
  rcases List.eq_nil_or_concat cs with rfl | ⟨ds, c, rfl⟩
  · exact absurd rfl hne
  · simp only [List.concat_eq_append] at hsuf ⊢
    by_cases hc : c = '\n'
    · subst hc
      rcases List.eq_nil_or_concat ds with rfl | ⟨es, c', rfl⟩
      · left; decide
      · simp only [List.concat_eq_append] at hsuf ⊢
        by_cases hc' : c' = '\n'
        · subst hc'
          exfalso
          have htrue : List.isSuffixOf ['\n', '\n'] ((es ++ ['\n']) ++ ['\n']) = true := by
            rw [List.isSuffixOf_iff_suffix]
            exact ⟨es, by simp⟩
          rw [htrue] at hsuf
          cases hsuf
        · right
          have hn : normChars ((es ++ [c']) ++ ['\n']) = splitNlChars (es ++ [c']) := by
            unfold normChars
            rw [splitNlChars_concat_nl]
            simp
          rw [hn]
          cases hs : (splitNlChars (es ++ [c'])).getLast? with
          | none => exact absurd (List.getLast?_eq_none_iff.mp hs) (splitNlChars_ne_nil _)
          | some l =>
            refine ⟨l, rfl, ?_⟩
            rintro rfl
            exact splitNlChars_concat_ne c' hc' es hs
    · right
      unfold normChars
      have hlast := splitNlChars_concat_ne c hc ds
      rw [if_neg hlast]
      cases hs : (splitNlChars (ds ++ [c])).getLast? with
      | none => exact absurd (List.getLast?_eq_none_iff.mp hs) (splitNlChars_ne_nil _)
      | some l =>
        refine ⟨l, rfl, ?_⟩
        rintro rfl
        exact hlast hs

theorem map_mk_data_roundtrip : ∀ P : List (List Char),
    (P.map String.mk).map String.data = P := by
  intro P
  induction P with
  | nil => rfl
  | cons p ps ih =>
    simp only [List.map_cons]
    rw [ih]

/-- C7 as amended: line normalization splits on the newline character and
drops the single empty trailing element (`"a\nb\n"` normalizes to
`["a", "b"]`), empty input yields the empty sequence; and for every
NONEMPTY input ending with zero or one trailing newline, re-normalizing
the text reconstructed from the normalized lines yields the same line
sequence.  (The original claim, quantified over every such input, fails at
the empty string.) -/
theorem claim_C7_normalization_amended :
    _normalize_diff_lines "a\nb\n" = ["a", "b"] ∧
    _normalize_diff_lines "" = [] ∧
    (∀ text : String, text ≠ "" →
        List.isSuffixOf ['\n', '\n'] text.data = false →
        _normalize_diff_lines (reassemble (_normalize_diff_lines text)) =
          _normalize_diff_lines text) := by
  refine ⟨by decide, by decide, ?_⟩
  intro text hne hsuf
  have hdata : text.data ≠ [] := by
    intro h
    apply hne
    cases text with
    | mk data =>
      have h' : data = [] := h
      subst h'
      rfl
  show (normChars (reassemble ((normChars text.data).map String.mk)).data).map String.mk =
    (normChars text.data).map String.mk
  have h1 : (reassemble ((normChars text.data).map String.mk)).data =
      reasmChars (normChars text.data) := by
    show (String.mk (reasmChars (((normChars text.data).map String.mk).map String.data))).data =
      reasmChars (normChars text.data)
    rw [map_mk_data_roundtrip]
  rw [h1]
  rw [normChars_reasmChars (normChars text.data) ?hfree ?hgood]
  case hfree =>
    intro l hl
    by_cases hcond : (splitNlChars text.data).getLast? = some []
    · have hl' : l ∈ (splitNlChars text.data).dropLast := by
        simpa [normChars, hcond] using hl
      exact nl_not_mem_splitNlChars text.data l (List.dropLast_subset _ hl')
    · have hl' : l ∈ splitNlChars text.data := by
        simpa [normChars, hcond] using hl
      exact nl_not_mem_splitNlChars text.data l hl'
  case hgood => exact normChars_good_last text.data hdata hsuf

/-- The original C7, quantified over all inputs with zero or one trailing
newline, fails at the empty string: `""` normalizes to `[]`, reassembles
to `"\n"`, and re-normalizes to `[""]`, not `[]`. -/
theorem claim_C7_normalization_counterexample :
    ¬ (_normalize_diff_lines (reassemble (_normalize_diff_lines "")) =
        _normalize_diff_lines "") := by
  decide

/-- Closed instantiation of the amended C7 at `"a\nb\n"`. -/
theorem claim_C7_normalization_witness :
    _normalize_diff_lines (reassemble (_normalize_diff_lines "a\nb\n")) =
      _normalize_diff_lines "a\nb\n" :=
  claim_C7_normalization_amended.2.2 "a\nb\n" (by decide) (by decide)
